import Mathlib

/-!
Verification development for the lfx-v2-fga-sync authorization relationship
synchronizer.  The definitions below shallowly embed the tuple data model,
the store adapter operations and the reconciliation engine handlers of the
repository; the theorems settle the stated properties of those functions.
-/

namespace FgaSync

/-- An OpenFGA relationship tuple `(user, relation, object)`
(`client.ClientTupleKey` / `openfga.TupleKey` in the source). -/
structure TupleKey where
  user : String
  relation : String
  object : String
deriving DecidableEq, Repr

/-- The authorization store, modelled as the finite collection of tuples it
holds.  Tuples are globally unique; we reason about the store through
membership. -/
abbrev Store := List TupleKey

/-- Embedding of `ReadObjectTuples(object)`: all tuples whose `object` field equals the
argument (the paginated read of the adapter, with pages concatenated). -/
def readObject (S : Store) (o : String) : List TupleKey :=
  S.filter (fun t => t.object == o)

/-- Embedding of `WriteAndDeleteTuples(writes, deletes)`: one atomic batch that removes
`deletes` and adds `writes`.  An `AlreadyExists` write and a `NotFound`
delete are treated as success, so the result is characterised purely by
membership. -/
def writeAndDelete (S : Store) (writes deletes : List TupleKey) : Store :=
  S.filter (fun t => decide (t ∉ deletes)) ++ writes.filter (fun t => decide (t ∉ S))

/-- The guard pattern `if len(writes) > 0 || len(deletes) > 0 { WriteAndDelete }`
shared by the engine operations: an empty batch is never issued. -/
def applyIfChanged (S : Store) (writes deletes : List TupleKey) : Store :=
  if writes.isEmpty && deletes.isEmpty then S else writeAndDelete S writes deletes

theorem mem_readObject {S : Store} {o : String} {t : TupleKey} :
    t ∈ readObject S o ↔ t ∈ S ∧ t.object = o := by
  simp [readObject, List.mem_filter]

theorem mem_writeAndDelete {S writes deletes : Store} {t : TupleKey} :
    t ∈ writeAndDelete S writes deletes ↔
      (t ∈ S ∧ t ∉ deletes) ∨ (t ∈ writes ∧ t ∉ S) := by
  simp [writeAndDelete, List.mem_append, List.mem_filter]

theorem mem_applyIfChanged {S writes deletes : Store} {t : TupleKey} :
    t ∈ applyIfChanged S writes deletes ↔
      (t ∈ S ∧ t ∉ deletes) ∨ (t ∈ writes ∧ t ∉ S) := by
  unfold applyIfChanged
  by_cases h : writes.isEmpty && deletes.isEmpty
  · have hw : writes = [] := List.isEmpty_iff.mp (Bool.and_elim_left h)
    have hd : deletes = [] := List.isEmpty_iff.mp (Bool.and_elim_right h)
    subst hw; subst hd
    simp
  · rw [if_neg h, mem_writeAndDelete]

/-!
### Per-user member put

Embedding of `computeMemberPutChanges` and `applyMemberPutChanges`
(handler_generic.go).  The Go code builds `desiredRelations` and
`existingRelationsMap` as hash sets; set membership is what matters, so the
desired-relation iteration is modelled by `List.dedup`.
-/

/-- Embedding of `computeMemberPutChanges`: deletes are
the user's existing tuples whose relation is mutually exclusive and not
desired; writes are the desired relations the user does not already hold. -/
def computeMemberPutChanges (existingTuples : List TupleKey)
    (userPrincipal object : String)
    (relations mutuallyExclusiveWith : List String) :
    List TupleKey × List TupleKey :=
  let tuplesToDelete := existingTuples.filterMap (fun t =>
    if t.user = userPrincipal ∧ t.relation ∈ mutuallyExclusiveWith
        ∧ t.relation ∉ relations
    then some t else none)
  let existingRelations :=
    (existingTuples.filter (fun t => t.user == userPrincipal)).map (fun t => t.relation)
  let tuplesToWrite := relations.dedup.filterMap (fun r =>
    if r ∈ existingRelations then none
    else some (TupleKey.mk userPrincipal r object))
  (tuplesToWrite, tuplesToDelete)

/-- The full `member_put` engine step: read the object's tuples, compute the
changes, and apply them in one `WriteAndDeleteTuples` batch when non-empty
(`genericMemberPutHandler` body after validation). -/
def memberPutApply (S : Store) (object userPrincipal : String)
    (relations mutuallyExclusiveWith : List String) : Store :=
  let wd := computeMemberPutChanges (readObject S object) userPrincipal object
    relations mutuallyExclusiveWith
  applyIfChanged S wd.1 wd.2

theorem mem_memberPut_writes {existingTuples : List TupleKey}
    {u o : String} {relations mex : List String} {t : TupleKey} :
    t ∈ (computeMemberPutChanges existingTuples u o relations mex).1 ↔
      t.user = u ∧ t.object = o ∧ t.relation ∈ relations ∧
        ¬ ∃ s ∈ existingTuples, s.user = u ∧ s.relation = t.relation := by
  have hmem : ∀ r : String,
      r ∈ (existingTuples.filter (fun t => t.user == u)).map (fun t => t.relation) ↔
        ∃ s ∈ existingTuples, s.user = u ∧ s.relation = r := by
    intro r
    simp only [List.mem_map, List.mem_filter, beq_iff_eq]
    constructor
    · rintro ⟨s, ⟨hs, hsu⟩, hsr⟩
      exact ⟨s, hs, hsu, hsr⟩
    · rintro ⟨s, hs, hsu, hsr⟩
      exact ⟨s, ⟨hs, hsu⟩, hsr⟩
  simp only [computeMemberPutChanges, List.mem_filterMap, List.mem_dedup]
  constructor
  · rintro ⟨r, hr, hif⟩
    split at hif
    · exact absurd hif (by simp)
    · rename_i hc
      rw [Option.some.injEq] at hif
      subst hif
      exact ⟨rfl, rfl, hr, fun hex => hc ((hmem r).mpr hex)⟩
  · rintro ⟨hu, ho, hrel, hnex⟩
    refine ⟨t.relation, hrel, ?_⟩
    rw [if_neg (fun hc => hnex ((hmem t.relation).mp hc)), Option.some.injEq]
    cases t
    simp_all

theorem mem_memberPut_deletes {existingTuples : List TupleKey}
    {u o : String} {relations mex : List String} {t : TupleKey} :
    t ∈ (computeMemberPutChanges existingTuples u o relations mex).2 ↔
      t ∈ existingTuples ∧ t.user = u ∧ t.relation ∈ mex ∧
        t.relation ∉ relations := by
  simp only [computeMemberPutChanges, List.mem_filterMap]
  constructor
  · rintro ⟨s, hs, hif⟩
    split at hif
    · rename_i hcond
      rw [Option.some.injEq] at hif
      subst hif
      exact ⟨hs, hcond.1, hcond.2.1, hcond.2.2⟩
    · exact absurd hif (by simp)
  · rintro ⟨hmem, hu, hmex, hnotrel⟩
    exact ⟨t, hmem, by rw [if_pos ⟨hu, hmex, hnotrel⟩]⟩

/-- C2: starting from a store where user `u` holds exactly the relations
`Rold` on object `o`, a `member_put` with non-empty desired relations `Rnew`
and mutual-exclusion list `mex` computes writes `Rnew \ Rold`, deletes
`Rold ∩ (mex \ Rnew)`, and leaves `u` holding exactly
`(Rold \ (mex \ Rnew)) ∪ Rnew`. -/
theorem memberPut_transition (S : Store) (o u : String)
    (Rnew mex Rold : List String)
    (_hne : Rnew ≠ [])
    (hold : ∀ r : String, TupleKey.mk u r o ∈ S ↔ r ∈ Rold) :
    (∀ t, t ∈ (computeMemberPutChanges (readObject S o) u o Rnew mex).1 ↔
      t.user = u ∧ t.object = o ∧ t.relation ∈ Rnew ∧ t.relation ∉ Rold)
    ∧ (∀ t, t ∈ (computeMemberPutChanges (readObject S o) u o Rnew mex).2 ↔
      t = TupleKey.mk u t.relation o ∧ t.relation ∈ Rold ∧
        t.relation ∈ mex ∧ t.relation ∉ Rnew)
    ∧ (∀ r : String, TupleKey.mk u r o ∈ memberPutApply S o u Rnew mex ↔
      ((r ∈ Rold ∧ ¬(r ∈ mex ∧ r ∉ Rnew)) ∨ r ∈ Rnew)) := by
  have hex : ∀ r : String,
      (∃ s ∈ readObject S o, s.user = u ∧ s.relation = r) ↔ r ∈ Rold := by
    intro r
    constructor
    · rintro ⟨s, hs, hsu, hsr⟩
      rw [mem_readObject] at hs
      have hseq : s = TupleKey.mk u r o := by
        cases s
        simp_all
      rw [hseq] at hs
      exact (hold r).mp hs.1
    · intro hr
      exact ⟨TupleKey.mk u r o, mem_readObject.mpr ⟨(hold r).mpr hr, rfl⟩, rfl, rfl⟩
  have hw : ∀ t, t ∈ (computeMemberPutChanges (readObject S o) u o Rnew mex).1 ↔
      t.user = u ∧ t.object = o ∧ t.relation ∈ Rnew ∧ t.relation ∉ Rold := by
    intro t
    rw [mem_memberPut_writes, hex t.relation]
  have hd : ∀ t, t ∈ (computeMemberPutChanges (readObject S o) u o Rnew mex).2 ↔
      t = TupleKey.mk u t.relation o ∧ t.relation ∈ Rold ∧
        t.relation ∈ mex ∧ t.relation ∉ Rnew := by
    intro t
    rw [mem_memberPut_deletes]
    constructor
    · rintro ⟨hmem, hu, hmex, hnr⟩
      rw [mem_readObject] at hmem
      have hteq : t = TupleKey.mk u t.relation o := by
        cases t
        simp_all
      refine ⟨hteq, ?_, hmex, hnr⟩
      exact (hold t.relation).mp (hteq ▸ hmem.1)
    · rintro ⟨hteq, hrold, hmex, hnr⟩
      refine ⟨?_, ?_, hmex, hnr⟩
      · rw [mem_readObject, hteq]
        exact ⟨(hold t.relation).mpr hrold, rfl⟩
      · rw [hteq]
  refine ⟨hw, hd, ?_⟩
  intro r
  rw [memberPutApply, mem_applyIfChanged]
  have hwr : TupleKey.mk u r o ∈
      (computeMemberPutChanges (readObject S o) u o Rnew mex).1 ↔
      (r ∈ Rnew ∧ r ∉ Rold) := by
    rw [hw]
    simp
  have hdr : TupleKey.mk u r o ∈
      (computeMemberPutChanges (readObject S o) u o Rnew mex).2 ↔
      (r ∈ Rold ∧ r ∈ mex ∧ r ∉ Rnew) := by
    rw [hd]
    simp
  rw [hwr, hdr, hold r]
  tauto

/-- Witness for `memberPut_transition`: scenario S4 of the spec, a
participant-to-host role transition on `meeting:m1`. -/
theorem memberPut_transition_witness :
    TupleKey.mk "user:bob" "host" "meeting:m1" ∈
      memberPutApply [TupleKey.mk "user:bob" "participant" "meeting:m1"]
        "meeting:m1" "user:bob" ["host"] ["participant", "host"] ∧
    TupleKey.mk "user:bob" "participant" "meeting:m1" ∉
      memberPutApply [TupleKey.mk "user:bob" "participant" "meeting:m1"]
        "meeting:m1" "user:bob" ["host"] ["participant", "host"] := by
  have h := memberPut_transition
    [TupleKey.mk "user:bob" "participant" "meeting:m1"]
    "meeting:m1" "user:bob" ["host"] ["participant", "host"] ["participant"]
    (by decide) (by
      intro r
      simp [TupleKey.mk.injEq])
  constructor
  · exact (h.2.2 "host").mpr (Or.inr (by simp))
  · intro hmem
    rcases (h.2.2 "participant").mp hmem with h1 | h2
    · exact h1.2 ⟨by simp, by simp⟩
    · simp at h2

/-- C10: frame property of `member_put` — every scheduled delete is for the
named user principal and a relation in the mutual-exclusion list, so tuples
of any other user, and tuples of the named user outside that list, survive
the operation. -/
theorem memberPut_frame (S : Store) (o u : String) (Rnew mex : List String) :
    (∀ t ∈ (computeMemberPutChanges (readObject S o) u o Rnew mex).2,
      t.user = u ∧ t.relation ∈ mex)
    ∧ (∀ t : TupleKey, t ∈ S → (t.user ≠ u ∨ t.relation ∉ mex) →
      t ∈ memberPutApply S o u Rnew mex) := by
  have hdel : ∀ t ∈ (computeMemberPutChanges (readObject S o) u o Rnew mex).2,
      t.user = u ∧ t.relation ∈ mex := by
    intro t ht
    rw [mem_memberPut_deletes] at ht
    exact ⟨ht.2.1, ht.2.2.1⟩
  refine ⟨hdel, ?_⟩
  intro t htS hother
  rw [memberPutApply, mem_applyIfChanged]
  refine Or.inl ⟨htS, fun hdelm => ?_⟩
  have := hdel t hdelm
  rcases hother with hu | hm
  · exact hu this.1
  · exact hm this.2

/-- Witness for `memberPut_frame`: a different user's tuple and a
non-mutually-exclusive tuple of the named user both survive the S4 put. -/
theorem memberPut_frame_witness :
    TupleKey.mk "user:carol" "participant" "meeting:m1" ∈
      memberPutApply
        [TupleKey.mk "user:carol" "participant" "meeting:m1",
         TupleKey.mk "user:bob" "invitee" "meeting:m1"]
        "meeting:m1" "user:bob" ["host"] ["participant", "host"] ∧
    TupleKey.mk "user:bob" "invitee" "meeting:m1" ∈
      memberPutApply
        [TupleKey.mk "user:carol" "participant" "meeting:m1",
         TupleKey.mk "user:bob" "invitee" "meeting:m1"]
        "meeting:m1" "user:bob" ["host"] ["participant", "host"] := by
  have h := memberPut_frame
    [TupleKey.mk "user:carol" "participant" "meeting:m1",
     TupleKey.mk "user:bob" "invitee" "meeting:m1"]
    "meeting:m1" "user:bob" ["host"] ["participant", "host"]
  constructor
  · exact h.2 (TupleKey.mk "user:carol" "participant" "meeting:m1")
      (by simp) (Or.inl (by decide))
  · exact h.2 (TupleKey.mk "user:bob" "invitee" "meeting:m1")
      (by simp) (Or.inr (by decide))

/-!
### Desired-tuple construction for `update_access`

Embedding of the tuple-building loop of `processStandardAccessUpdate`
(handler.go).  Go map iteration order is unspecified, so `References` and
`Relations` are modelled as association lists; the properties below are
membership statements, insensitive to order.
-/

/-- The reference loop of `processStandardAccessUpdate`: for each
`(reference, valueList)` entry, build `(refType:value, reference, object)`
where `refType` is the reference name, or the event's `object_type` when the
reference is literally `parent` (`constants.RelationParent`). -/
def referenceTuples (objectType object : String)
    (references : List (String × List String)) : List TupleKey :=
  references.flatMap (fun rv =>
    let refType := if rv.1 = "parent" then objectType else rv.1
    rv.2.map (fun value => TupleKey.mk (refType ++ ":" ++ value) rv.1 object))

/-- The relation loop of `processStandardAccessUpdate`: each principal is
prefixed with `constants.ObjectTypeUser` (`"user:"`). -/
def relationTuples (object : String)
    (relations : List (String × List String)) : List TupleKey :=
  relations.flatMap (fun rp =>
    rp.2.map (fun principal => TupleKey.mk ("user:" ++ principal) rp.1 object))

/-- The full desired-tuple list built by `processStandardAccessUpdate`:
the `user:*` viewer tuple when public, then references, then relations. -/
def standardAccessTuples (objectType object : String) (isPublic : Bool)
    (references relations : List (String × List String)) : List TupleKey :=
  (if isPublic then [TupleKey.mk "user:*" "viewer" object] else [])
    ++ referenceTuples objectType object references
    ++ relationTuples object relations

/-- C3 (code bug): for `references = [("project", ["project:P"])]` on event
object `committee:C`, the code unconditionally prefixes the value with the
relation name, producing user `project:project:P`; the claimed verbatim
tuple `(project:P, project, committee:C)` is not in the desired set. -/
theorem referenceTuples_colon_not_verbatim :
    referenceTuples "committee" "committee:C" [("project", ["project:P"])]
      = [TupleKey.mk "project:project:P" "project" "committee:C"] ∧
    TupleKey.mk "project:P" "project" "committee:C" ∉
      referenceTuples "committee" "committee:C" [("project", ["project:P"])] := by
  constructor
  · rfl
  · decide

/-!
### Per-user member remove
-/

/-- Modelled from the spec: `DeleteTuplesByUserAndObject(user, object)` of
the tuple store adapter, whose implementation file is not part of the
provided sources (its unit tests are) — read the object, filter to the
user's tuples, delete them in one batch, issuing no call when there is
nothing to delete. -/
def deleteTuplesByUserAndObject (S : Store) (user object : String) : Store :=
  let tuplesToDelete := (readObject S object).filter (fun t => t.user == user)
  if tuplesToDelete.isEmpty then S else writeAndDelete S [] tuplesToDelete

/-- Outcome of a `member_remove` engine step: which branch ran, the batch
issued, and the resulting store. -/
structure RemoveResult where
  usedDeleteAll : Bool
  writes : List TupleKey
  deletes : List TupleKey
  store : Store
deriving Repr

/-- The core of `genericMemberRemoveHandler` (handler_generic.go) after
validation: filter out empty relation names; when none remain, delete all
of the user's tuples on the object, otherwise issue
`WriteAndDeleteTuples(nil, deletes)` for exactly the listed relations. -/
def memberRemoveCore (S : Store) (object userPrincipal : String)
    (relations : List String) : RemoveResult :=
  let validRelations := relations.filter (fun r => !(r == ""))
  if validRelations.isEmpty then
    { usedDeleteAll := true
      writes := []
      deletes := (readObject S object).filter (fun t => t.user == userPrincipal)
      store := deleteTuplesByUserAndObject S userPrincipal object }
  else
    let tuplesToDelete := validRelations.map
      (fun r => TupleKey.mk userPrincipal r object)
    { usedDeleteAll := false
      writes := []
      deletes := tuplesToDelete
      store := writeAndDelete S [] tuplesToDelete }

theorem mem_deleteTuplesByUserAndObject {S : Store} {u o : String}
    {t : TupleKey} :
    t ∈ deleteTuplesByUserAndObject S u o ↔
      t ∈ S ∧ ¬(t.user = u ∧ t.object = o) := by
  unfold deleteTuplesByUserAndObject
  by_cases h : ((readObject S o).filter (fun t => t.user == u)).isEmpty
  · rw [if_pos h]
    rw [List.isEmpty_iff] at h
    constructor
    · intro ht
      refine ⟨ht, ?_⟩
      rintro ⟨hu, ho⟩
      have : t ∈ (readObject S o).filter (fun t => t.user == u) :=
        List.mem_filter.mpr ⟨mem_readObject.mpr ⟨ht, ho⟩, by simp [hu]⟩
      rw [h] at this
      exact absurd this (List.not_mem_nil t)
    · exact fun ht => ht.1
  · rw [if_neg h, mem_writeAndDelete]
    constructor
    · rintro (⟨htS, hnd⟩ | ⟨hmem, -⟩)
      · refine ⟨htS, ?_⟩
        rintro ⟨hu, ho⟩
        exact hnd (List.mem_filter.mpr ⟨mem_readObject.mpr ⟨htS, ho⟩, by simp [hu]⟩)
      · exact absurd hmem (List.not_mem_nil t)
    · rintro ⟨htS, hno⟩
      refine Or.inl ⟨htS, fun hdm => ?_⟩
      rw [List.mem_filter, mem_readObject] at hdm
      exact hno ⟨by simpa using hdm.2, hdm.1.2⟩

/-- C7: `member_remove` with an all-empty relations list removes every tuple
of `(user, object)`; with a non-empty filtered list it issues exactly the
listed `(user, r, object)` deletes with an empty write list, tolerating
relations that are absent from the store. -/
theorem memberRemove_correct (S : Store) (o u : String)
    (relations : List String) :
    ((relations.filter (fun r => !(r == ""))) = [] →
      ∀ r : String, TupleKey.mk u r o ∉ (memberRemoveCore S o u relations).store)
    ∧ ((relations.filter (fun r => !(r == ""))) ≠ [] →
      (memberRemoveCore S o u relations).writes = [] ∧
      (memberRemoveCore S o u relations).deletes =
        (relations.filter (fun r => !(r == ""))).map
          (fun r => TupleKey.mk u r o) ∧
      (∀ t : TupleKey, t ∈ (memberRemoveCore S o u relations).store ↔
        t ∈ S ∧ ¬(t.user = u ∧ t.object = o ∧ t.relation ∈
          relations.filter (fun r => !(r == ""))))) := by
  constructor
  · intro hempty r
    unfold memberRemoveCore
    rw [hempty]
    simp only [List.isEmpty_nil, if_true]
    intro hmem
    rw [mem_deleteTuplesByUserAndObject] at hmem
    exact hmem.2 ⟨rfl, rfl⟩
  · intro hne
    have hguard : (relations.filter (fun r => !(r == ""))).isEmpty = false := by
      rw [Bool.eq_false_iff]
      intro hcon
      exact hne (List.isEmpty_iff.mp hcon)
    simp only [memberRemoveCore, hguard, Bool.false_eq_true, if_false]
    refine ⟨trivial, trivial, ?_⟩
    intro t
    rw [mem_writeAndDelete]
    constructor
    · rintro (⟨htS, hnd⟩ | ⟨hmem, -⟩)
      · refine ⟨htS, ?_⟩
        rintro ⟨hu, ho, hr⟩
        refine hnd (List.mem_map.mpr ⟨t.relation, hr, ?_⟩)
        cases t
        simp_all
      · exact absurd hmem (List.not_mem_nil t)
    · rintro ⟨htS, hno⟩
      refine Or.inl ⟨htS, fun hdm => ?_⟩
      rw [List.mem_map] at hdm
      obtain ⟨r, hr, hteq⟩ := hdm
      exact hno (by rw [← hteq]; exact ⟨rfl, rfl, by simpa [← hteq] using hr⟩)

/-- Witness for `memberRemove_correct`: scenario S5 (removing `invitee`
from a past meeting) and a remove-all on the same store. -/
theorem memberRemove_correct_witness :
    (TupleKey.mk "user:alice" "host" "past_meeting:p1" ∈
      (memberRemoveCore
        [TupleKey.mk "user:alice" "host" "past_meeting:p1",
         TupleKey.mk "user:alice" "invitee" "past_meeting:p1"]
        "past_meeting:p1" "user:alice" ["invitee"]).store) ∧
    (TupleKey.mk "user:alice" "invitee" "past_meeting:p1" ∉
      (memberRemoveCore
        [TupleKey.mk "user:alice" "host" "past_meeting:p1",
         TupleKey.mk "user:alice" "invitee" "past_meeting:p1"]
        "past_meeting:p1" "user:alice" ["invitee"]).store) ∧
    (TupleKey.mk "user:alice" "host" "past_meeting:p1" ∉
      (memberRemoveCore
        [TupleKey.mk "user:alice" "host" "past_meeting:p1",
         TupleKey.mk "user:alice" "invitee" "past_meeting:p1"]
        "past_meeting:p1" "user:alice" []).store) := by
  have hsome := (memberRemove_correct
    [TupleKey.mk "user:alice" "host" "past_meeting:p1",
     TupleKey.mk "user:alice" "invitee" "past_meeting:p1"]
    "past_meeting:p1" "user:alice" ["invitee"]).2 (by decide)
  have hall := (memberRemove_correct
    [TupleKey.mk "user:alice" "host" "past_meeting:p1",
     TupleKey.mk "user:alice" "invitee" "past_meeting:p1"]
    "past_meeting:p1" "user:alice" []).1 (by decide)
  refine ⟨?_, ?_, hall "host"⟩
  · exact (hsome.2.2 (TupleKey.mk "user:alice" "host" "past_meeting:p1")).mpr
      ⟨by simp, by decide⟩
  · intro hmem
    have := (hsome.2.2
      (TupleKey.mk "user:alice" "invitee" "past_meeting:p1")).mp hmem
    exact this.2 ⟨rfl, rfl, by decide⟩

/-!
### Two-level policy expansion

Embedding of `domain.Policy` and `policyHandler.EvaluatePolicy`
(internal/service).
-/

/-- Embedding of `domain.Policy`: a fine-grained authorization policy. -/
structure Policy where
  name : String
  relation : String
  value : String
deriving DecidableEq, Repr

/-- Embedding of `Policy.ObjectID()`: `"<name>:<value>"`. -/
def Policy.objectID (p : Policy) : String := p.name ++ ":" ++ p.value

/-- Embedding of `Policy.UserRelation(objectID, relation)`: `"<objectID>#<relation>"`. -/
def policyUserRelation (objectID relation : String) : String :=
  objectID ++ "#" ++ relation

/-- The `checkTuple` closure of `EvaluatePolicy`: read the target object's
tuples; schedule any tuple with the same user but a different relation for
deletion, and schedule the new tuple for write unless the exact tuple
already exists. -/
def checkTuple (S : Store) (object user relation : String) :
    List TupleKey × List TupleKey :=
  let existingTuples := readObject S object
  let tuplesToDelete := existingTuples.filterMap (fun t =>
    if t.user = user ∧ t.relation ≠ relation
    then some (TupleKey.mk user t.relation object) else none)
  let existsExact := existingTuples.any
    (fun t => t.user == user && t.relation == relation)
  let tuplesToWrite :=
    if existsExact then ([] : List TupleKey) else [TupleKey.mk user relation object]
  (tuplesToWrite, tuplesToDelete)

/-- Result of one policy evaluation: the merged batch and the store after
the single `WriteAndDeleteTuples` call. -/
structure PolicyEvalResult where
  writes : List TupleKey
  deletes : List TupleKey
  store : Store
deriving DecidableEq, Repr

/-- Embedding of `EvaluatePolicy`: validate the
policy, reconcile the level-1 tuple on `objectID` and the level-2 tuple on
the policy object, and apply the merged writes and deletes in one batch.
`none` models the validation error returns. -/
def evaluatePolicy (S : Store) (p : Policy)
    (objectID userObjectRelation : String) : Option PolicyEvalResult :=
  if p.name = "" ∨ p.value = "" ∨ p.relation = "" ∨ objectID = "" then none
  else
    let policyObject := p.objectID
    let level1 := checkTuple S objectID policyObject p.name
    let userRelation := policyUserRelation objectID userObjectRelation
    let level2 := checkTuple S policyObject userRelation p.relation
    let tuplesToWrite := level1.1 ++ level2.1
    let tuplesToDelete := level1.2 ++ level2.2
    some { writes := tuplesToWrite, deletes := tuplesToDelete,
           store := applyIfChanged S tuplesToWrite tuplesToDelete }

theorem checkTuple_writes {S : Store} {o u r : String} :
    (checkTuple S o u r).1 =
      if TupleKey.mk u r o ∈ S then [] else [TupleKey.mk u r o] := by
  have hany : (readObject S o).any (fun t => t.user == u && t.relation == r) =
      decide (TupleKey.mk u r o ∈ S) := by
    by_cases hm : TupleKey.mk u r o ∈ S
    · rw [decide_eq_true hm, List.any_eq_true]
      exact ⟨TupleKey.mk u r o, mem_readObject.mpr ⟨hm, rfl⟩, by simp⟩
    · rw [decide_eq_false hm, List.any_eq_false]
      intro t ht
      rw [mem_readObject] at ht
      simp only [Bool.and_eq_true, beq_iff_eq, not_and]
      intro hu hr
      apply hm
      have hteq : t = TupleKey.mk u r o := by
        cases t
        simp_all
      rw [← hteq]
      exact ht.1
  simp only [checkTuple, hany]
  by_cases hm : TupleKey.mk u r o ∈ S <;> simp [hm]

theorem mem_checkTuple_deletes {S : Store} {o u r : String} {x : TupleKey} :
    x ∈ (checkTuple S o u r).2 ↔
      x.user = u ∧ x.object = o ∧ x.relation ≠ r ∧
        TupleKey.mk u x.relation o ∈ S := by
  unfold checkTuple
  simp only [List.mem_filterMap]
  constructor
  · rintro ⟨t, ht, hif⟩
    split at hif
    · rename_i hcond
      rw [Option.some.injEq] at hif
      subst hif
      rw [mem_readObject] at ht
      have hteq : t = TupleKey.mk u t.relation o := by
        cases t
        simp_all
      exact ⟨rfl, rfl, hcond.2, by rw [← hteq]; exact ht.1⟩
    · exact absurd hif (by simp)
  · rintro ⟨hu, ho, hr, hmem⟩
    refine ⟨TupleKey.mk u x.relation o, mem_readObject.mpr ⟨hmem, rfl⟩, ?_⟩
    rw [if_pos ⟨rfl, hr⟩, Option.some.injEq]
    cases x
    simp_all

/-- C6: a policy `{name, value, relation}` on resource object `o` with
member relation `m` reconciles exactly the level-1 tuple
`(name:value, name, o)` and the level-2 tuple `(o#m, relation, name:value)`:
for each target the new tuple is written only when the exact tuple is
absent, conflicting same-user tuples are scheduled for deletion, and both
levels are merged into a single atomic batch. -/
theorem evaluatePolicy_correct (S : Store) (p : Policy) (objectID m : String)
    (res : PolicyEvalResult)
    (h : evaluatePolicy S p objectID m = some res) :
    (res.writes =
      (if TupleKey.mk p.objectID p.name objectID ∈ S then []
       else [TupleKey.mk p.objectID p.name objectID]) ++
      (if TupleKey.mk (policyUserRelation objectID m) p.relation p.objectID ∈ S
       then []
       else [TupleKey.mk (policyUserRelation objectID m) p.relation p.objectID]))
    ∧ (∀ x : TupleKey, x ∈ res.deletes ↔
        (x.user = p.objectID ∧ x.object = objectID ∧ x.relation ≠ p.name ∧
          TupleKey.mk p.objectID x.relation objectID ∈ S)
        ∨ (x.user = policyUserRelation objectID m ∧ x.object = p.objectID ∧
          x.relation ≠ p.relation ∧
          TupleKey.mk (policyUserRelation objectID m) x.relation p.objectID ∈ S))
    ∧ (∀ t : TupleKey, t ∈ res.store ↔
        (t ∈ S ∧ t ∉ res.deletes) ∨ (t ∈ res.writes ∧ t ∉ S)) := by
  rw [evaluatePolicy] at h
  split at h
  · exact absurd h (by simp)
  · rw [Option.some.injEq] at h
    subst h
    refine ⟨?_, ?_, ?_⟩
    · rw [checkTuple_writes, checkTuple_writes]
    · intro x
      simp only [List.mem_append, mem_checkTuple_deletes]
    · intro t
      exact mem_applyIfChanged

/-- Witness for `evaluatePolicy_correct`: the visibility policy of the
source documentation evaluated on `committee:C` against an empty store. -/
theorem evaluatePolicy_correct_witness :
    TupleKey.mk "visibility_policy:basic_profile" "visibility_policy"
        "committee:C" ∈
      (PolicyEvalResult.mk
        [TupleKey.mk "visibility_policy:basic_profile" "visibility_policy"
           "committee:C",
         TupleKey.mk "committee:C#member" "allows_basic_profile"
           "visibility_policy:basic_profile"]
        []
        [TupleKey.mk "visibility_policy:basic_profile" "visibility_policy"
           "committee:C",
         TupleKey.mk "committee:C#member" "allows_basic_profile"
           "visibility_policy:basic_profile"]).store := by
  have h := evaluatePolicy_correct []
    (Policy.mk "visibility_policy" "allows_basic_profile" "basic_profile")
    "committee:C" "member"
    (PolicyEvalResult.mk
      [TupleKey.mk "visibility_policy:basic_profile" "visibility_policy"
         "committee:C",
       TupleKey.mk "committee:C#member" "allows_basic_profile"
         "visibility_policy:basic_profile"]
      []
      [TupleKey.mk "visibility_policy:basic_profile" "visibility_policy"
         "committee:C",
       TupleKey.mk "committee:C#member" "allows_basic_profile"
         "visibility_policy:basic_profile"])
    (by decide)
  exact (h.2.2 (TupleKey.mk "visibility_policy:basic_profile"
    "visibility_policy" "committee:C")).mpr
    (Or.inr ⟨by decide, by decide⟩)

/-!
### Full-object sync

Modelled from the spec: `FgaService.SyncObjectTuples(ctx, object, relations,
skipRelations...)` — the reconciliation engine's full-object sync, whose
implementation file is not among the provided sources (its unit tests and
every caller are).  Spec §4.2.1: normalize the desired set (fill empty
objects, drop foreign objects, de-duplicate by `(user, relation)` with later
entries winning), read the current tuples, diff, filter excluded relations
out of the deletes, and issue one batch unless both lists are empty.
-/

/-- Equality of the `(user, relation)` de-duplication key
(`relation.User + "#" + relation.Relation` in the mirrored test). -/
def keyEq (a b : TupleKey) : Bool :=
  a.user == b.user && a.relation == b.relation

/-- De-duplication by `(user, relation)` where later entries win: an entry
is kept exactly when no later entry carries the same key, matching
insertion into a map keyed by `user#relation`. -/
def dedupLast : List TupleKey → List TupleKey
  | [] => []
  | t :: rest => if rest.any (keyEq t) then dedupLast rest else t :: dedupLast rest

/-- Normalization of one desired tuple: an empty `object` is set to the
argument; a non-empty `object` different from the argument drops the
tuple. -/
def fillObject (o : String) (t : TupleKey) : Option TupleKey :=
  if t.object = "" then some { t with object := o }
  else if t.object = o then some t else none

/-- The normalized desired set of `SyncObjectTuples`. -/
def normalizeDesired (o : String) (D : List TupleKey) : List TupleKey :=
  dedupLast (D.filterMap (fillObject o))

/-- The computed writes: normalized desired tuples not already current. -/
def syncWrites (S : Store) (o : String) (D : List TupleKey) : List TupleKey :=
  (normalizeDesired o D).filter (fun t => decide (t ∉ readObject S o))

/-- The computed deletes: current tuples not desired, excluding the
relations in `skipRelations`. -/
def syncDeletes (S : Store) (o : String) (D : List TupleKey)
    (E : List String) : List TupleKey :=
  (readObject S o).filter
    (fun t => decide (t ∉ normalizeDesired o D) && decide (t.relation ∉ E))

/-- Result of one `SyncObjectTuples` call: the returned write and delete
lists, the store afterwards, and whether a store write call was issued. -/
structure SyncResult where
  writes : List TupleKey
  deletes : List TupleKey
  store : Store
  storeCalled : Bool
deriving DecidableEq, Repr

/-- Modelled from the spec: `SyncObjectTuples(object, desired,
skipRelations)` returning the computed batch; no store call happens when
both lists are empty. -/
def syncObjectTuples (S : Store) (o : String) (D : List TupleKey)
    (E : List String) : SyncResult :=
  let w := syncWrites S o D
  let d := syncDeletes S o D E
  { writes := w
    deletes := d
    store := applyIfChanged S w d
    storeCalled := !(w.isEmpty && d.isEmpty) }

theorem fillObject_eq_some {o : String} {s t : TupleKey} :
    fillObject o s = some t ↔
      s.user = t.user ∧ s.relation = t.relation ∧ t.object = o ∧
        (s.object = "" ∨ s.object = o) := by
  unfold fillObject
  by_cases h0 : s.object = ""
  · rw [if_pos h0]
    cases s
    cases t
    simp_all [eq_comm]
  · rw [if_neg h0]
    by_cases ho : s.object = o
    · rw [if_pos ho]
      cases s
      cases t
      simp_all [eq_comm]
    · rw [if_neg ho]
      constructor
      · intro h
        exact absurd h (by simp)
      · rintro ⟨-, -, -, h0o | hoo⟩
        · exact absurd h0o h0
        · exact absurd hoo ho

theorem mem_of_mem_dedupLast {l : List TupleKey} {t : TupleKey}
    (h : t ∈ dedupLast l) : t ∈ l := by
  induction l with
  | nil => exact absurd h (List.not_mem_nil t)
  | cons x rest ih =>
    rw [dedupLast] at h
    split at h
    · exact List.mem_cons_of_mem x (ih h)
    · rcases List.mem_cons.mp h with heq | hm
      · exact heq ▸ List.mem_cons_self x rest
      · exact List.mem_cons_of_mem x (ih hm)

theorem mem_dedupLast_iff {l : List TupleKey} {t : TupleKey}
    (huniq : ∀ a ∈ l, ∀ b ∈ l, keyEq a b = true → a = b) :
    t ∈ dedupLast l ↔ t ∈ l := by
  constructor
  · exact mem_of_mem_dedupLast
  · intro hmem
    induction l with
    | nil => exact absurd hmem (List.not_mem_nil t)
    | cons x rest ih =>
      rw [dedupLast]
      have huniq' : ∀ a ∈ rest, ∀ b ∈ rest, keyEq a b = true → a = b :=
        fun a ha b hb => huniq a (List.mem_cons_of_mem x ha)
          b (List.mem_cons_of_mem x hb)
      split
      · rename_i hany
        rcases List.mem_cons.mp hmem with heq | hm
        · subst heq
          obtain ⟨y, hy, hkey⟩ := List.any_eq_true.mp hany
          have : t = y := huniq t (List.mem_cons_self t rest)
            y (List.mem_cons_of_mem t hy) hkey
          exact ih huniq' (this ▸ hy)
        · exact ih huniq' hm
      · rcases List.mem_cons.mp hmem with heq | hm
        · exact heq ▸ List.mem_cons_self x _
        · exact List.mem_cons_of_mem x (ih huniq' hm)

theorem object_of_mem_fill {o : String} {D : List TupleKey} {t : TupleKey}
    (h : t ∈ D.filterMap (fillObject o)) : t.object = o := by
  rw [List.mem_filterMap] at h
  obtain ⟨s, -, hs⟩ := h
  exact (fillObject_eq_some.mp hs).2.2.1

theorem mem_normalizeDesired {o : String} {D : List TupleKey} {t : TupleKey} :
    t ∈ normalizeDesired o D ↔
      t.object = o ∧
        (TupleKey.mk t.user t.relation "" ∈ D ∨ TupleKey.mk t.user t.relation o ∈ D) := by
  unfold normalizeDesired
  rw [mem_dedupLast_iff]
  · rw [List.mem_filterMap]
    constructor
    · rintro ⟨s, hsD, hfill⟩
      obtain ⟨hu, hr, hto, hobj⟩ := fillObject_eq_some.mp hfill
      refine ⟨hto, ?_⟩
      rcases hobj with h0 | ho
      · refine Or.inl ?_
        have : s = TupleKey.mk t.user t.relation "" := by
          cases s
          simp_all
        exact this ▸ hsD
      · refine Or.inr ?_
        have : s = TupleKey.mk t.user t.relation o := by
          cases s
          simp_all
        exact this ▸ hsD
    · rintro ⟨hto, h0 | ho⟩
      · refine ⟨TupleKey.mk t.user t.relation "", h0, ?_⟩
        rw [fillObject_eq_some]
        exact ⟨rfl, rfl, hto, Or.inl rfl⟩
      · refine ⟨TupleKey.mk t.user t.relation o, ho, ?_⟩
        rw [fillObject_eq_some]
        exact ⟨rfl, rfl, hto, Or.inr rfl⟩
  · intro a ha b hb hkey
    have hao := object_of_mem_fill ha
    have hbo := object_of_mem_fill hb
    unfold keyEq at hkey
    cases a
    cases b
    simp_all

theorem object_of_mem_normalizeDesired {o : String} {D : List TupleKey}
    {t : TupleKey} (h : t ∈ normalizeDesired o D) : t.object = o :=
  (mem_normalizeDesired.mp h).1

theorem mem_syncWrites {S : Store} {o : String} {D : List TupleKey}
    {t : TupleKey} :
    t ∈ syncWrites S o D ↔ t ∈ normalizeDesired o D ∧ t ∉ S := by
  unfold syncWrites
  rw [List.mem_filter]
  constructor
  · rintro ⟨hn, hd⟩
    rw [decide_eq_true_eq] at hd
    refine ⟨hn, fun hS => ?_⟩
    exact hd (mem_readObject.mpr ⟨hS, object_of_mem_normalizeDesired hn⟩)
  · rintro ⟨hn, hS⟩
    refine ⟨hn, ?_⟩
    rw [decide_eq_true_eq]
    intro hro
    exact hS (mem_readObject.mp hro).1

theorem mem_syncDeletes {S : Store} {o : String} {D : List TupleKey}
    {E : List String} {t : TupleKey} :
    t ∈ syncDeletes S o D E ↔
      t ∈ S ∧ t.object = o ∧ t ∉ normalizeDesired o D ∧ t.relation ∉ E := by
  unfold syncDeletes
  rw [List.mem_filter, mem_readObject]
  simp only [Bool.and_eq_true, decide_eq_true_eq]
  tauto

theorem mem_syncStore {S : Store} {o : String} {D : List TupleKey}
    {E : List String} {t : TupleKey} :
    t ∈ (syncObjectTuples S o D E).store ↔
      (t ∈ S ∧ t ∉ syncDeletes S o D E) ∨ (t ∈ syncWrites S o D ∧ t ∉ S) := by
  unfold syncObjectTuples
  exact mem_applyIfChanged

theorem mem_normalizeDesired_of_objects {o : String} {D : List TupleKey}
    (hD : ∀ t ∈ D, t.object = o) {t : TupleKey} :
    t ∈ normalizeDesired o D ↔ t ∈ D := by
  rw [mem_normalizeDesired]
  constructor
  · rintro ⟨hto, h0 | ho⟩
    · have hoe : "" = o := hD _ h0
      have heq : TupleKey.mk t.user t.relation "" = t := by
        cases t
        simp_all
      exact heq ▸ h0
    · have heq : TupleKey.mk t.user t.relation o = t := by
        cases t
        simp_all
      exact heq ▸ ho
  · intro hD1
    have hto := hD t hD1
    refine ⟨hto, Or.inr ?_⟩
    have heq : TupleKey.mk t.user t.relation o = t := by
      cases t
      simp_all
    exact heq ▸ hD1

/-- C1 fails as universally stated: the exclusion list only filters deletes,
so a desired tuple carrying an excluded relation is still written.  On an
empty store, syncing `committee:c1` with desired
`(user:alice, member, committee:c1)` and exclusions `["member"]` adds the
`member` tuple although the claim requires relations in the exclusion list
to stay exactly as in the initial store. -/
theorem sync_excluded_counterexample :
    TupleKey.mk "user:alice" "member" "committee:c1" ∈
      (syncObjectTuples [] "committee:c1"
        [TupleKey.mk "user:alice" "member" "committee:c1"] ["member"]).store
    ∧ TupleKey.mk "user:alice" "member" "committee:c1" ∉ ([] : Store) := by
  decide

/-- C1 (amended): when every desired tuple carries the argument object and
no desired tuple carries an excluded relation, a successful sync leaves the
store holding, for each non-excluded relation, exactly the desired tuples,
and leaves every tuple of the object with an excluded relation exactly as
it was. -/
theorem syncObjectTuples_correct (S : Store) (o : String) (D : List TupleKey)
    (E : List String)
    (hD : ∀ t ∈ D, t.object = o)
    (hDE : ∀ t ∈ D, t.relation ∉ E) :
    (∀ u r : String, r ∉ E →
      (TupleKey.mk u r o ∈ (syncObjectTuples S o D E).store ↔
        TupleKey.mk u r o ∈ D))
    ∧ (∀ u r : String, r ∈ E →
      (TupleKey.mk u r o ∈ (syncObjectTuples S o D E).store ↔
        TupleKey.mk u r o ∈ S)) := by
  have hnorm : ∀ t : TupleKey, t ∈ normalizeDesired o D ↔ t ∈ D :=
    fun t => mem_normalizeDesired_of_objects hD
  constructor
  · intro u r hrE
    rw [mem_syncStore]
    constructor
    · rintro (⟨htS, hnd⟩ | ⟨hw, -⟩)
      · by_contra htD
        apply hnd
        rw [mem_syncDeletes]
        exact ⟨htS, rfl, fun hn => htD ((hnorm _).mp hn), hrE⟩
      · exact (hnorm _).mp (mem_syncWrites.mp hw).1
    · intro htD
      by_cases htS : TupleKey.mk u r o ∈ S
      · refine Or.inl ⟨htS, fun hd => ?_⟩
        rw [mem_syncDeletes] at hd
        exact hd.2.2.1 ((hnorm _).mpr htD)
      · exact Or.inr ⟨mem_syncWrites.mpr ⟨(hnorm _).mpr htD, htS⟩, htS⟩
  · intro u r hrE
    rw [mem_syncStore]
    constructor
    · rintro (⟨htS, -⟩ | ⟨hw, -⟩)
      · exact htS
      · have htD := (hnorm _).mp (mem_syncWrites.mp hw).1
        exact absurd hrE (hDE _ htD)
    · intro htS
      refine Or.inl ⟨htS, fun hd => ?_⟩
      rw [mem_syncDeletes] at hd
      exact hd.2.2.2 hrE

/-- Witness for `syncObjectTuples_correct`: scenario S2 — re-syncing
`committee:c1` to `{(user:alice, member, ·)}` with `viewer` excluded, from
a store holding the public viewer tuple and members alice and bob, keeps
alice, drops bob, and preserves the excluded viewer tuple. -/
theorem syncObjectTuples_correct_witness :
    (TupleKey.mk "user:alice" "member" "committee:c1" ∈
      (syncObjectTuples
        [TupleKey.mk "user:*" "viewer" "committee:c1",
         TupleKey.mk "user:alice" "member" "committee:c1",
         TupleKey.mk "user:bob" "member" "committee:c1"]
        "committee:c1"
        [TupleKey.mk "user:alice" "member" "committee:c1"]
        ["viewer"]).store)
    ∧ (TupleKey.mk "user:bob" "member" "committee:c1" ∉
      (syncObjectTuples
        [TupleKey.mk "user:*" "viewer" "committee:c1",
         TupleKey.mk "user:alice" "member" "committee:c1",
         TupleKey.mk "user:bob" "member" "committee:c1"]
        "committee:c1"
        [TupleKey.mk "user:alice" "member" "committee:c1"]
        ["viewer"]).store)
    ∧ (TupleKey.mk "user:*" "viewer" "committee:c1" ∈
      (syncObjectTuples
        [TupleKey.mk "user:*" "viewer" "committee:c1",
         TupleKey.mk "user:alice" "member" "committee:c1",
         TupleKey.mk "user:bob" "member" "committee:c1"]
        "committee:c1"
        [TupleKey.mk "user:alice" "member" "committee:c1"]
        ["viewer"]).store) := by
  have h := syncObjectTuples_correct
    [TupleKey.mk "user:*" "viewer" "committee:c1",
     TupleKey.mk "user:alice" "member" "committee:c1",
     TupleKey.mk "user:bob" "member" "committee:c1"]
    "committee:c1"
    [TupleKey.mk "user:alice" "member" "committee:c1"]
    ["viewer"]
    (by decide) (by decide)
  refine ⟨?_, ?_, ?_⟩
  · exact (h.1 "user:alice" "member" (by decide)).mpr (by decide)
  · intro hmem
    exact absurd ((h.1 "user:bob" "member" (by decide)).mp hmem) (by decide)
  · exact (h.2 "user:*" "viewer" (by decide)).mpr (by decide)

/-- C4: `Sync` is idempotent — running the same sync again immediately
computes empty write and delete lists, returns `(0, 0)`, performs no store
write call, and leaves the store unchanged. -/
theorem syncObjectTuples_idempotent (S : Store) (o : String)
    (D : List TupleKey) (E : List String) :
    (syncObjectTuples (syncObjectTuples S o D E).store o D E).writes = []
    ∧ (syncObjectTuples (syncObjectTuples S o D E).store o D E).deletes = []
    ∧ (syncObjectTuples (syncObjectTuples S o D E).store o D E).storeCalled
        = false
    ∧ (syncObjectTuples (syncObjectTuples S o D E).store o D E).store
        = (syncObjectTuples S o D E).store := by
  have hw : syncWrites (syncObjectTuples S o D E).store o D = [] := by
    rw [syncWrites, List.filter_eq_nil_iff]
    intro t ht
    simp only [decide_eq_true_eq, not_not]
    rw [mem_readObject]
    refine ⟨?_, object_of_mem_normalizeDesired ht⟩
    rw [mem_syncStore]
    by_cases htS : t ∈ S
    · refine Or.inl ⟨htS, fun hd => ?_⟩
      rw [mem_syncDeletes] at hd
      exact hd.2.2.1 ht
    · exact Or.inr ⟨mem_syncWrites.mpr ⟨ht, htS⟩, htS⟩
  have hd : syncDeletes (syncObjectTuples S o D E).store o D E = [] := by
    rw [syncDeletes, List.filter_eq_nil_iff]
    intro t ht
    simp only [Bool.and_eq_true, decide_eq_true_eq, not_and]
    intro hnotn hrE
    rw [mem_readObject] at ht
    have hts := ht.1
    rw [mem_syncStore] at hts
    rcases hts with ⟨htS, hnd⟩ | ⟨hwmem, -⟩
    · exact hnd (mem_syncDeletes.mpr ⟨htS, ht.2, hnotn, hrE⟩)
    · exact hnotn (mem_syncWrites.mp hwmem).1
  refine ⟨?_, ?_, ?_, ?_⟩
  · exact hw
  · exact hd
  · show (!((syncWrites (syncObjectTuples S o D E).store o D).isEmpty &&
        (syncDeletes (syncObjectTuples S o D E).store o D E).isEmpty)) = false
    rw [hw, hd]
    rfl
  · show applyIfChanged (syncObjectTuples S o D E).store
        (syncWrites (syncObjectTuples S o D E).store o D)
        (syncDeletes (syncObjectTuples S o D E).store o D E)
      = (syncObjectTuples S o D E).store
    rw [hw, hd]
    rfl

theorem filterMap_reverse (f : TupleKey → Option TupleKey)
    (l : List TupleKey) :
    l.reverse.filterMap f = (l.filterMap f).reverse := by
  induction l with
  | nil => rfl
  | cons x l ih =>
    rw [List.reverse_cons, List.filterMap_append, ih]
    cases h : f x with
    | none => simp [List.filterMap_cons, h]
    | some b => simp [List.filterMap_cons, h]

theorem find?_dedupLast (u r : String) (l : List TupleKey) :
    (dedupLast l).find? (fun t => t.user == u && t.relation == r) =
      l.reverse.find? (fun t => t.user == u && t.relation == r) := by
  induction l with
  | nil => rfl
  | cons t rest ih =>
    rw [List.reverse_cons, List.find?_append, dedupLast]
    by_cases h : rest.any (keyEq t)
    · rw [if_pos h, ih]
      cases hres : rest.reverse.find? (fun t => t.user == u && t.relation == r)
        with
      | none =>
        rw [Option.none_or]
        rw [List.find?_eq_none] at hres
        obtain ⟨y, hy, hkey⟩ := List.any_eq_true.mp h
        rw [List.find?_cons_of_neg
          (p := fun x : TupleKey => x.user == u && x.relation == r)]
        · rfl
        · intro hpt
          refine hres y (by simp [hy]) ?_
          unfold keyEq at hkey
          simp only [Bool.and_eq_true, beq_iff_eq] at hpt hkey ⊢
          exact ⟨hkey.1 ▸ hpt.1, hkey.2 ▸ hpt.2⟩
      | some x => rfl
    · rw [if_neg h]
      have hkeys : ∀ x ∈ rest, keyEq t x = false := by
        intro x hx
        have hfalse : rest.any (keyEq t) = false := Bool.eq_false_iff.mpr h
        exact Bool.eq_false_iff.mpr
          (fun hcon => (List.any_eq_false.mp hfalse x hx) hcon)
      by_cases hpt : (t.user == u && t.relation == r) = true
      · rw [List.find?_cons_of_pos
          (p := fun x : TupleKey => x.user == u && x.relation == r) _ hpt]
        have hnone : rest.reverse.find?
            (fun t => t.user == u && t.relation == r) = none := by
          rw [List.find?_eq_none]
          intro x hx hpx
          rw [List.mem_reverse] at hx
          have hkx : keyEq t x = true := by
            unfold keyEq
            simp only [Bool.and_eq_true, beq_iff_eq] at hpt hpx ⊢
            exact ⟨hpt.1.trans hpx.1.symm, hpt.2.trans hpx.2.symm⟩
          rw [hkeys x hx] at hkx
          exact absurd hkx (by simp)
        rw [hnone, Option.none_or, List.find?_cons_of_pos
          (p := fun x : TupleKey => x.user == u && x.relation == r) _ hpt]
      · rw [List.find?_cons_of_neg
          (p := fun x : TupleKey => x.user == u && x.relation == r) _ hpt, ih]
        cases hres : rest.reverse.find?
            (fun t => t.user == u && t.relation == r) with
        | none =>
          rw [Option.none_or, List.find?_cons_of_neg
            (p := fun x : TupleKey => x.user == u && x.relation == r) _ hpt]
          rfl
        | some x => rfl

theorem find?_filterMap_fill (o u r : String) (l : List TupleKey) :
    (l.filterMap (fillObject o)).find?
        (fun t => t.user == u && t.relation == r) =
      (l.find? (fun s => s.user == u && s.relation == r &&
          (s.object == "" || s.object == o))).map
        (fun s => TupleKey.mk s.user s.relation o) := by
  induction l with
  | nil => rfl
  | cons s l ih =>
    by_cases hf : s.object = "" ∨ s.object = o
    · have hfill : fillObject o s = some (TupleKey.mk s.user s.relation o) :=
        fillObject_eq_some.mpr ⟨rfl, rfl, rfl, hf⟩
      simp only [List.filterMap_cons, hfill]
      by_cases hps : (s.user == u && s.relation == r) = true
      · have hqs : (s.user == u && s.relation == r &&
            (s.object == "" || s.object == o)) = true := by
          rw [hps, Bool.true_and]
          rcases hf with h0 | ho
          · simp [h0]
          · simp [ho]
        have hps2 : ((TupleKey.mk s.user s.relation o).user == u &&
            (TupleKey.mk s.user s.relation o).relation == r) = true := hps
        rw [List.find?_cons_of_pos
          (p := fun t : TupleKey => t.user == u && t.relation == r) _ hps2,
          List.find?_cons_of_pos
          (p := fun s : TupleKey => s.user == u && s.relation == r &&
            (s.object == "" || s.object == o)) _ hqs]
        rfl
      · have hqs : ¬(s.user == u && s.relation == r &&
            (s.object == "" || s.object == o)) = true := by
          intro hcon
          exact hps (Bool.and_elim_left hcon)
        have hps2 : ¬((TupleKey.mk s.user s.relation o).user == u &&
            (TupleKey.mk s.user s.relation o).relation == r) = true := hps
        rw [List.find?_cons_of_neg
          (p := fun t : TupleKey => t.user == u && t.relation == r) _ hps2,
          List.find?_cons_of_neg
          (p := fun s : TupleKey => s.user == u && s.relation == r &&
            (s.object == "" || s.object == o)) _ hqs, ih]
    · have hfill : fillObject o s = none := by
        cases hx : fillObject o s with
        | none => rfl
        | some t => exact absurd (fillObject_eq_some.mp hx).2.2.2 hf
      simp only [List.filterMap_cons, hfill]
      have hqs : ¬(s.user == u && s.relation == r &&
          (s.object == "" || s.object == o)) = true := by
        intro hcon
        have := Bool.and_elim_right hcon
        rw [Bool.or_eq_true] at this
        rcases this with h0 | ho
        · exact hf (Or.inl (by simpa using h0))
        · exact hf (Or.inr (by simpa using ho))
      rw [List.find?_cons_of_neg
        (p := fun s : TupleKey => s.user == u && s.relation == r &&
          (s.object == "" || s.object == o)) _ hqs, ih]

theorem dedupLast_pairwise (l : List TupleKey) :
    (dedupLast l).Pairwise (fun a b => keyEq a b = false) := by
  induction l with
  | nil => exact List.Pairwise.nil
  | cons t rest ih =>
    rw [dedupLast]
    split
    · exact ih
    · rename_i h
      refine List.Pairwise.cons ?_ ih
      intro b hb
      have hfalse : rest.any (keyEq t) = false := Bool.eq_false_iff.mpr h
      exact Bool.eq_false_iff.mpr
        (fun hcon =>
          (List.any_eq_false.mp hfalse b (mem_of_mem_dedupLast hb)) hcon)

/-- C5: normalization of the desired-tuple input — every produced tuple
carries the argument object and stems from an input tuple whose object was
empty or equal to the argument (foreign-object tuples are dropped); every
input tuple with an empty or matching object is represented; the output has
pairwise-distinct `(user, relation)` keys; and the entry kept for each key
is the last fillable input entry with that key, its object filled in. -/
theorem normalizeDesired_spec (o : String) (D : List TupleKey) :
    (∀ t ∈ normalizeDesired o D, t.object = o ∧
      ∃ s ∈ D, s.user = t.user ∧ s.relation = t.relation ∧
        (s.object = "" ∨ s.object = o))
    ∧ (∀ s ∈ D, (s.object = "" ∨ s.object = o) →
      ∃ t ∈ normalizeDesired o D,
        t.user = s.user ∧ t.relation = s.relation ∧ t.object = o)
    ∧ (normalizeDesired o D).Pairwise (fun a b => keyEq a b = false)
    ∧ (∀ u r : String,
      (normalizeDesired o D).find? (fun t => t.user == u && t.relation == r) =
        (D.reverse.find? (fun s => s.user == u && s.relation == r &&
            (s.object == "" || s.object == o))).map
          (fun s => TupleKey.mk s.user s.relation o)) := by
  have hfind : ∀ u r : String,
      (normalizeDesired o D).find? (fun t => t.user == u && t.relation == r) =
        (D.reverse.find? (fun s => s.user == u && s.relation == r &&
            (s.object == "" || s.object == o))).map
          (fun s => TupleKey.mk s.user s.relation o) := by
    intro u r
    unfold normalizeDesired
    rw [find?_dedupLast, ← filterMap_reverse, find?_filterMap_fill]
  refine ⟨?_, ?_, dedupLast_pairwise _, hfind⟩
  · intro t ht
    obtain ⟨hto, h0 | ho⟩ := mem_normalizeDesired.mp ht
    · exact ⟨hto, TupleKey.mk t.user t.relation "", h0, rfl, rfl, Or.inl rfl⟩
    · exact ⟨hto, TupleKey.mk t.user t.relation o, ho, rfl, rfl, Or.inr rfl⟩
  · intro s hs hfill
    have hq : (s.user == s.user && s.relation == s.relation &&
        (s.object == "" || s.object == o)) = true := by
      rcases hfill with h0 | ho
      · simp [h0]
      · simp [ho]
    have hsome : (D.reverse.find? (fun x => x.user == s.user &&
        x.relation == s.relation && (x.object == "" || x.object == o))).isSome
        := by
      rw [List.find?_isSome]
      exact ⟨s, List.mem_reverse.mpr hs, hq⟩
    obtain ⟨x, hx⟩ := Option.isSome_iff_exists.mp hsome
    have hmap := hfind s.user s.relation
    rw [hx] at hmap
    refine ⟨TupleKey.mk x.user x.relation o,
      List.mem_of_find?_eq_some hmap, ?_, ?_, rfl⟩
    · have := List.find?_some hx
      simp only [Bool.and_eq_true, beq_iff_eq] at this
      exact this.1.1
    · have := List.find?_some hx
      simp only [Bool.and_eq_true, beq_iff_eq] at this
      exact this.1.2

/-- Witness for `normalizeDesired_spec`: a foreign-object tuple is dropped,
an empty-object tuple is filled, and of two entries sharing the
`(user:b, viewer)` key the later (explicit-object) entry wins. -/
theorem normalizeDesired_spec_witness :
    (normalizeDesired "project:123"
      [TupleKey.mk "user:a" "writer" "project:999",
       TupleKey.mk "user:b" "viewer" "",
       TupleKey.mk "user:b" "viewer" "project:123"]).find?
        (fun t => t.user == "user:b" && t.relation == "viewer")
      = some (TupleKey.mk "user:b" "viewer" "project:123") ∧
    (normalizeDesired "project:123"
      [TupleKey.mk "user:a" "writer" "project:999",
       TupleKey.mk "user:b" "viewer" "",
       TupleKey.mk "user:b" "viewer" "project:123"]).find?
        (fun t => t.user == "user:a" && t.relation == "writer")
      = none := by
  constructor
  · rw [(normalizeDesired_spec "project:123"
      [TupleKey.mk "user:a" "writer" "project:999",
       TupleKey.mk "user:b" "viewer" "",
       TupleKey.mk "user:b" "viewer" "project:123"]).2.2.2 "user:b" "viewer"]
    rfl
  · rw [(normalizeDesired_spec "project:123"
      [TupleKey.mk "user:a" "writer" "project:999",
       TupleKey.mk "user:b" "viewer" "",
       TupleKey.mk "user:b" "viewer" "project:123"]).2.2.2 "user:a" "writer"]
    rfl

/-!
### Check-request parsing

Modelled from the spec: `FgaService.ExtractCheckRequests(payload)` — the
implementation file is not among the provided sources (its unit tests are).
The payload is handled at the character level: split on LF, skip empty
lines, require `<object>#<relation>@<user>` on every remaining line, and
fail the whole request on the first malformed line.
-/

/-- One parsed check item (`ClientBatchCheckItem` fields). -/
structure CheckItem where
  object : List Char
  relation : List Char
  user : List Char
deriving DecidableEq, Repr

/-- Split a line at the first occurrence of a separator character,
returning the parts before and after it, or `none` when it is absent. -/
def breakAt (c : Char) : List Char → Option (List Char × List Char)
  | [] => none
  | x :: xs =>
    if x = c then some ([], xs)
    else (breakAt c xs).map (fun q => (x :: q.1, q.2))

/-- Modelled from the spec: parse one check line
`<object>#<relation>@<user>`; a line missing either separator is
malformed. -/
def parseCheckLine (line : List Char) : Option CheckItem :=
  match breakAt '#' line with
  | none => none
  | some op =>
    match breakAt '@' op.2 with
    | none => none
    | some ru => some (CheckItem.mk op.1 ru.1 ru.2)

/-- Split the payload on LF separators. -/
def splitLines : List Char → List (List Char)
  | [] => [[]]
  | x :: xs =>
    let r := splitLines xs
    if x = '\n' then [] :: r
    else
      match r with
      | [] => [[x]]
      | y :: ys => (x :: y) :: ys

/-- Parse each line in order, failing the whole batch on the first
malformed line. -/
def extractList : List (List Char) → Option (List CheckItem)
  | [] => some []
  | line :: rest =>
    match parseCheckLine line, extractList rest with
    | some item, some items => some (item :: items)
    | _, _ => none

/-- Modelled from the spec: `ExtractCheckRequests(payload)`. -/
def extractCheckRequests (payload : List Char) : Option (List CheckItem) :=
  extractList ((splitLines payload).filter (fun l => decide (l ≠ [])))

theorem breakAt_decomp {c : Char} {l : List Char}
    {q : List Char × List Char} (h : breakAt c l = some q) :
    l = q.1 ++ c :: q.2 := by
  induction l generalizing q with
  | nil => exact absurd h (by simp [breakAt])
  | cons x xs ih =>
    rw [breakAt] at h
    split at h
    · rename_i hx
      rw [Option.some.injEq] at h
      subst h
      simp [hx]
    · cases hb : breakAt c xs with
      | none =>
        rw [hb] at h
        exact absurd h (by simp)
      | some q0 =>
        rw [hb] at h
        simp only [Option.map_some', Option.some.injEq] at h
        subst h
        simp only [List.cons_append, List.cons.injEq]
        exact ⟨trivial, ih hb⟩

theorem extractList_none {ls : List (List Char)} {line : List Char}
    (hmem : line ∈ ls) (hbad : parseCheckLine line = none) :
    extractList ls = none := by
  induction ls with
  | nil => exact absurd hmem (List.not_mem_nil line)
  | cons l rest ih =>
    rw [extractList]
    rcases List.mem_cons.mp hmem with heq | hm
    · subst heq
      rw [hbad]
    · rw [ih hm]
      cases parseCheckLine l <;> rfl

theorem extractList_length {ls : List (List Char)} {items : List CheckItem}
    (h : extractList ls = some items) : items.length = ls.length := by
  induction ls generalizing items with
  | nil =>
    rw [extractList, Option.some.injEq] at h
    subst h
    rfl
  | cons l rest ih =>
    rw [extractList] at h
    cases hp : parseCheckLine l with
    | none =>
      rw [hp] at h
      exact absurd h (by simp)
    | some item =>
      rw [hp] at h
      cases hr : extractList rest with
      | none =>
        rw [hr] at h
        exact absurd h (by simp)
      | some items0 =>
        rw [hr, Option.some.injEq] at h
        subst h
        simp [ih hr]

/-- C8: check-request parsing — any malformed non-empty line fails the
whole request with no items; a successful parse yields one item per
non-empty line (empty lines are skipped); a parsed line necessarily
contains both the `#` and the `@` separator; and an empty or all-newline
payload yields zero items without error. -/
theorem extractCheckRequests_spec :
    (∀ payload line : List Char, line ∈ splitLines payload → line ≠ [] →
      parseCheckLine line = none → extractCheckRequests payload = none)
    ∧ (∀ payload : List Char, ∀ items : List CheckItem,
      extractCheckRequests payload = some items →
      items.length =
        ((splitLines payload).filter (fun l => decide (l ≠ []))).length)
    ∧ (∀ line : List Char, ∀ item : CheckItem,
      parseCheckLine line = some item → '#' ∈ line ∧ '@' ∈ line)
    ∧ extractCheckRequests [] = some []
    ∧ extractCheckRequests ['\n', '\n', '\n'] = some [] := by
  refine ⟨?_, ?_, ?_, rfl, rfl⟩
  · intro payload line hmem hne hbad
    unfold extractCheckRequests
    exact extractList_none
      (List.mem_filter.mpr ⟨hmem, by simpa using hne⟩) hbad
  · intro payload items h
    exact extractList_length h
  · intro line item h
    rw [parseCheckLine] at h
    split at h
    · exact absurd h (by simp)
    · rename_i op h1
      split at h
      · exact absurd h (by simp)
      · rename_i ru h2
        have hd1 := breakAt_decomp h1
        have hd2 := breakAt_decomp h2
        constructor
        · rw [hd1]
          exact List.mem_append.mpr (Or.inr (List.mem_cons_self _ _))
        · rw [hd1, hd2]
          refine List.mem_append.mpr (Or.inr ?_)
          refine List.mem_cons_of_mem _ ?_
          exact List.mem_append.mpr (Or.inr (List.mem_cons_self _ _))

/-- Witness for `extractCheckRequests_spec`: a payload whose second line
lacks both separators fails whole; a well-formed single line contains both
separators. -/
theorem extractCheckRequests_spec_witness :
    extractCheckRequests
      ['a', '#', 'b', '@', 'c', '\n', 'x', 'y'] = none ∧
    ('#' ∈ ['p', '#', 'w', '@', 'u'] ∧ '@' ∈ ['p', '#', 'w', '@', 'u']) := by
  constructor
  · exact extractCheckRequests_spec.1
      ['a', '#', 'b', '@', 'c', '\n', 'x', 'y'] ['x', 'y']
      (by decide) (by decide) (by decide)
  · exact extractCheckRequests_spec.2.2.1 ['p', '#', 'w', '@', 'u']
      (CheckItem.mk ['p'] ['w'] ['u']) (by decide)

/-!
### Committee update_access control flow

Embedding of the control flow of `committeeUpdateAccessHandler`
(handler_committee.go): sync the committee tuples with `member` excluded,
return a sync error immediately, then evaluate each policy in order with
`"member"` as the member relation, returning the first policy error.
Adapter transport failures are abstracted by an oracle: `oracle 0` is the
outcome of the `SyncObjectTuples` call, `oracle (i + 1)` the outcome of the
`i`-th `EvaluatePolicy` call (`some e` = fail with error `e`).
-/

/-- One policy evaluation step: a transport failure propagates its error
unchanged; otherwise the evaluation runs, with validation failures
reported as errors. -/
def policyStep (S : Store) (p : Policy) (objectID : String)
    (err : Option String) : Except String Store :=
  match err with
  | some e => Except.error e
  | none =>
    match evaluatePolicy S p objectID "member" with
    | some res => Except.ok res.store
    | none => Except.error "invalid policy"

/-- The policy loop of `committeeUpdateAccessHandler`: evaluate policies in
order, stopping at the first error; the second component counts the policy
evaluations attempted. -/
def runPolicies (objectID : String) :
    List Policy → Store → (Nat → Option String) → Nat →
      Except String Store × Nat
  | [], S, _, _ => (Except.ok S, 0)
  | p :: rest, S, oracle, k =>
    match policyStep S p objectID (oracle k) with
    | Except.error e => (Except.error e, 1)
    | Except.ok S1 =>
      let r := runPolicies objectID rest S1 oracle (k + 1)
      (r.1, r.2 + 1)

/-- The handler after parsing and validation: run the main object sync; on
sync failure return the error at once with zero policy evaluations;
otherwise run the policy loop on the synced store. -/
def committeeUpdateAccess (S : Store) (objectID : String)
    (tuples : List TupleKey) (policies : List Policy)
    (oracle : Nat → Option String) : Except String Store × Nat :=
  match oracle 0 with
  | some e => (Except.error e, 0)
  | none =>
    runPolicies objectID policies
      (syncObjectTuples S objectID tuples ["member"]).store oracle 1

theorem evaluatePolicy_isSome {S : Store} {p : Policy} {objectID m : String}
    (h : ¬(p.name = "" ∨ p.value = "" ∨ p.relation = "" ∨ objectID = "")) :
    (evaluatePolicy S p objectID m).isSome := by
  rw [evaluatePolicy, if_neg h]
  rfl

theorem runPolicies_first_error (objectID : String)
    (pre : List Policy) (p : Policy) (post : List Policy)
    (oracle : Nat → Option String) (k : Nat) (e : String)
    (hobj : objectID ≠ "")
    (hpre_ok : ∀ i, i < pre.length → oracle (k + i) = none)
    (hpre_valid : ∀ q ∈ pre, q.name ≠ "" ∧ q.value ≠ "" ∧ q.relation ≠ "")
    (herr : oracle (k + pre.length) = some e) :
    ∀ S : Store,
      (runPolicies objectID (pre ++ p :: post) S oracle k).1 =
        Except.error e := by
  induction pre generalizing k with
  | nil =>
    intro S
    have hk : oracle k = some e := by simpa using herr
    simp [runPolicies, policyStep, hk]
  | cons q pre ih =>
    intro S
    have hk : oracle k = none := by
      have := hpre_ok 0 (by simp)
      simpa using this
    have hq := hpre_valid q (List.mem_cons_self q pre)
    have hvalid : ¬(q.name = "" ∨ q.value = "" ∨ q.relation = "" ∨
        objectID = "") := by
      rintro (h1 | h2 | h3 | h4)
      · exact hq.1 h1
      · exact hq.2.1 h2
      · exact hq.2.2 h3
      · exact hobj h4
    obtain ⟨res, hres⟩ :=
      Option.isSome_iff_exists.mp (evaluatePolicy_isSome (m := "member")
        (S := S) hvalid)
    have hstep : policyStep S q objectID (oracle k) = Except.ok res.store := by
      rw [hk, policyStep.eq_def]
      simp only [hres]
    rw [List.cons_append, runPolicies, hstep]
    have hih := ih (k + 1)
      (fun i hi => by
        have := hpre_ok (i + 1) (by simpa using Nat.succ_lt_succ hi)
        rwa [show k + (i + 1) = k + 1 + i by omega] at this)
      (fun x hx => hpre_valid x (List.mem_cons_of_mem q hx))
      (by
        have : k + (pre.length + 1) = k + 1 + pre.length := by omega
        rw [List.length_cons] at herr
        rwa [show k + (pre.length + 1) = k + 1 + pre.length by omega] at herr)
    exact hih res.store

/-- C9: for a committee `update_access` event with policies, the policy
expansion runs only after the main sync succeeded — a sync failure returns
the sync error unchanged with zero policy evaluations attempted — and the
first failing policy evaluation propagates its error unchanged. -/
theorem committeeUpdateAccess_error_flow (S : Store) (objectID : String)
    (tuples : List TupleKey) (policies : List Policy)
    (oracle : Nat → Option String) (e : String) :
    (oracle 0 = some e →
      committeeUpdateAccess S objectID tuples policies oracle =
        (Except.error e, 0))
    ∧ (∀ pre post : List Policy, ∀ p : Policy,
      policies = pre ++ p :: post →
      objectID ≠ "" →
      oracle 0 = none →
      (∀ i, i < pre.length → oracle (1 + i) = none) →
      (∀ q ∈ pre, q.name ≠ "" ∧ q.value ≠ "" ∧ q.relation ≠ "") →
      oracle (1 + pre.length) = some e →
      (committeeUpdateAccess S objectID tuples policies oracle).1 =
        Except.error e) := by
  constructor
  · intro h0
    rw [committeeUpdateAccess, h0]
  · intro pre post p hsplit hobj h0 hpre_ok hpre_valid herr
    rw [committeeUpdateAccess, h0, hsplit]
    exact runPolicies_first_error objectID pre p post oracle 1 e hobj
      hpre_ok hpre_valid herr
      (syncObjectTuples S objectID tuples ["member"]).store

/-- Witness for `committeeUpdateAccess_error_flow`: a failing sync yields
its error with no policy evaluation; with the sync succeeding, the first
policy evaluation's transport failure propagates. -/
theorem committeeUpdateAccess_error_flow_witness :
    committeeUpdateAccess [] "committee:c1" []
      [Policy.mk "visibility_policy" "allows_basic_profile" "basic_profile"]
      (fun _ => some "sync failed") = (Except.error "sync failed", 0) ∧
    (committeeUpdateAccess [] "committee:c1" []
      [Policy.mk "visibility_policy" "allows_basic_profile" "basic_profile"]
      (fun n => if n = 0 then none else some "policy failed")).1 =
        Except.error "policy failed" := by
  constructor
  · exact (committeeUpdateAccess_error_flow [] "committee:c1" []
      [Policy.mk "visibility_policy" "allows_basic_profile" "basic_profile"]
      (fun _ => some "sync failed") "sync failed").1 rfl
  · exact (committeeUpdateAccess_error_flow [] "committee:c1" []
      [Policy.mk "visibility_policy" "allows_basic_profile" "basic_profile"]
      (fun n => if n = 0 then none else some "policy failed")
      "policy failed").2 [] []
      (Policy.mk "visibility_policy" "allows_basic_profile" "basic_profile")
      rfl (by decide) rfl
      (fun i hi => absurd hi (by simp))
      (fun q hq => absurd hq (List.not_mem_nil q))
      rfl

end FgaSync
